import Mathlib

/-!
Shallow embedding of the grid-db versioned key-value store.

Keys of the quadtree/octree are pairs of a detail level (a byte) and a
Morton code (64-bit for the 2D shape, the low 96 bits of a 128-bit
integer for the 3D shape).  The key codec writes the level byte first,
then the Morton code big-endian, so lexicographic byte order matches
Morton order within a level.  Machine integers are modelled as Nat with
explicit bounds; byte strings are lists of Nat (each entry below 256).

The versioned store keeps four sled trees (working, backup, version
changes, version graph), an in-memory backup key cache and cached
metadata.  Trees are modelled as association lists; stored change blobs
are identified with the Change they encode through the bijection of the
change codec.  The database operations are modelled for the 3D key
shape, the one exercised by the integration tests of db.rs.
-/

namespace GridDb

/-- Big-endian byte string of width w for the natural number n
(the low 8*w bits of n), mirroring to_be_bytes on fixed-width ints. -/
def toBeBytes : Nat → Nat → List Nat
  | 0, _ => []
  | w + 1, n => n / 2 ^ (8 * w) % 256 :: toBeBytes w (n % 2 ^ (8 * w))

/-- Big-endian interpretation of a byte string, mirroring from_be_bytes. -/
def fromBeBytes (bs : List Nat) : Nat :=
  bs.foldl (fun acc b => 256 * acc + b) 0

/-- Strict lexicographic comparison of byte strings, mirroring the byte
slice Ord used by sled for keys. -/
def lexLtB : List Nat → List Nat → Bool
  | _, [] => false
  | [], _ :: _ => true
  | a :: as, b :: bs => if a < b then true else if b < a then false else lexLtB as bs

/-- 2D database key: a detail level byte and a 64-bit Morton code,
modelling DbKey2i32 of db_key.rs. -/
structure DbKey2i32 where
  level : Nat
  morton : Nat
deriving DecidableEq

/-- The 9-byte sled key of a 2D key: the level byte followed by the
8 big-endian bytes of the Morton code, from DbKey2i32.as_sled_key. -/
def DbKey2i32.as_sled_key (k : DbKey2i32) : List Nat :=
  k.level :: toBeBytes 8 k.morton

/-- Decoder of the 9-byte form, from DbKey2i32.from_sled_key: the first
byte is the level, the remaining 8 bytes are the big-endian Morton code. -/
def DbKey2i32.from_sled_key (bs : List Nat) : DbKey2i32 :=
  { level := bs.headD 0, morton := fromBeBytes (bs.drop 1) }

/-- 3D database key: a detail level byte and a Morton code using the low
96 bits of a 128-bit integer, modelling DbKey3i32 of db_key.rs. -/
structure DbKey3i32 where
  level : Nat
  morton : Nat
deriving DecidableEq

/-- The 13-byte sled key of a 3D key: the level byte followed by the low
12 bytes of the 16-byte big-endian form of the 128-bit Morton code, from
DbKey3i32.as_sled_key. -/
def DbKey3i32.as_sled_key (k : DbKey3i32) : List Nat :=
  k.level :: (toBeBytes 16 k.morton).drop 4

/-- Decoder of the 13-byte form, from DbKey3i32.from_sled_key: four zero
bytes are prepended to the 12 Morton bytes before the big-endian read. -/
def DbKey3i32.from_sled_key (bs : List Nat) : DbKey3i32 :=
  { level := bs.headD 0, morton := fromBeBytes (List.replicate 4 0 ++ bs.drop 1) }

/-- A change to the value at one key: insert a byte payload or remove
the entry, from Change in change_encoder.rs. -/
inductive Change where
  | Insert : List Nat → Change
  | Remove : Change
deriving DecidableEq

/-- Modelled from the spec: the byte encoding of a Change.  The actual
bytes are produced by the external rkyv serializer and read back by the
ArchivedBuf deserializer of archived_buf.rs, which is not under src;
section 4.2 requires a stable self-describing format in which Remove
fits a fixed compile-time 12-byte buffer (deserialize_remove_bytes
test).  An Insert is a tag byte 0 followed by its payload; Remove is tag
byte 1 padded to 12 bytes. -/
def Change.serializeChange : Change → List Nat
  | Change.Insert data => 0 :: data
  | Change.Remove => 1 :: List.replicate 11 0

/-- Modelled from the spec: the owning deserializer of the Change
encoding (ArchivedBuf.deserialize of archived_buf.rs is not under src). -/
def Change.deserializeChange : List Nat → Option Change
  | 0 :: data => some (Change.Insert data)
  | 1 :: rest => if rest = List.replicate 11 0 then some Change.Remove else none
  | _ => none

/-- Association-list lookup, the model of a point get on a sled tree or
a map lookup. -/
def aGet {α β : Type} [DecidableEq α] : List (α × β) → α → Option β
  | [], _ => none
  | p :: rest, k => if p.1 = k then some p.2 else aGet rest k

/-- Removal of every entry holding a key from an association list. -/
def aRemoveKey {α β : Type} [DecidableEq α] (k : α) : List (α × β) → List (α × β)
  | [] => []
  | p :: rest => if p.1 = k then aRemoveKey k rest else p :: aRemoveKey k rest

/-- Association-list insert with replacement: the model of map insert
and of a sled tree insert (which returns the prior value separately). -/
def aPut {α β : Type} [DecidableEq α] (m : List (α × β)) (k : α) (v : β) :
    List (α × β) :=
  (k, v) :: aRemoveKey k m

/-- Association-list remove returning the removed value, the model of a
sled tree remove. -/
def aDel {α β : Type} [DecidableEq α] (m : List (α × β)) (k : α) :
    Option β × List (α × β) :=
  (aGet m k, aRemoveKey k m)

/-- The derived Ord on DbKey3i32: level first, then Morton code. -/
def keyLe (a b : DbKey3i32) : Prop :=
  a.level < b.level ∨ (a.level = b.level ∧ a.morton ≤ b.morton)

/-- The strict part of the derived Ord on DbKey3i32. -/
def keyLt (a b : DbKey3i32) : Prop :=
  a.level < b.level ∨ (a.level = b.level ∧ a.morton < b.morton)

instance (a b : DbKey3i32) : Decidable (keyLe a b) := by
  unfold keyLe; infer_instance

instance (a b : DbKey3i32) : Decidable (keyLt a b) := by
  unfold keyLt; infer_instance

instance : IsTotal (DbKey3i32 × Change) (fun a b => keyLe a.1 b.1) :=
  ⟨fun a b => by unfold keyLe; omega⟩

instance : IsTrans (DbKey3i32 × Change) (fun a b => keyLe a.1 b.1) :=
  ⟨fun a b c hab hbc => by unfold keyLe at hab hbc ⊢; omega⟩

/-- ChangeEncoder.add_change: record a change, replacing any earlier
change at the same key (map insert keeps the latest). -/
def add_change (m : List (DbKey3i32 × Change)) (k : DbKey3i32) (c : Change) :
    List (DbKey3i32 × Change) :=
  aPut m k c

/-- The accumulated map of a ChangeEncoder after a sequence of
add_change events, starting from the empty default. -/
def addedChanges (events : List (DbKey3i32 × Change)) : List (DbKey3i32 × Change) :=
  events.foldl (fun m e => add_change m e.1 e.2) []

/-- ChangeEncoder.encode: serialize the values, sort the entries by the
key Ord, then encode each key to its sled byte form. -/
def ChangeEncoder.encode (m : List (DbKey3i32 × Change)) : List (List Nat × Change) :=
  (List.insertionSort (fun a b => keyLe a.1 b.1) m).map fun e => (e.1.as_sled_key, e.2)

/-- The latest change added for a key across a sequence of add_change
events. -/
def lastChange (events : List (DbKey3i32 × Change)) (k : DbKey3i32) : Option Change :=
  events.foldl (fun acc e => if e.1 = k then some e.2 else acc) none

/-- Byte strings used as sled keys. -/
abbrev Bytes := List Nat

/-- A sled tree keyed by encoded keys and holding serialized changes,
identified with the Change values they encode. -/
abbrev Tree := List (Bytes × Change)

/-- The delta from a version's parent to the version: an ordered mapping
from key to change (a BTreeMap), from version_change_tree.rs. -/
abbrev VersionChanges := List (DbKey3i32 × Change)

/-- A node of the version graph: the optional parent version. -/
structure VersionNode where
  parent_version : Option Nat
deriving DecidableEq

/-- Modelled from the spec: GridDbMetadata of the missing meta_tree.rs,
the grandparent, parent and working versions pinned by the database. -/
structure GridDbMetadata where
  grandparent_version : Option Nat
  parent_version : Option Nat
  working_version : Nat
deriving DecidableEq

/-- Abort reasons surfaced by commit and branch, from db.rs. -/
inductive AbortReason where
  | NoPathExists
  | NoPathExistsToRoot
  | MissingVersionChanges
deriving DecidableEq

instance {ε σ : Type} [DecidableEq ε] [DecidableEq σ] : DecidableEq (Except ε σ) :=
  fun a b =>
    match a, b with
    | Except.ok x, Except.ok y =>
      if h : x = y then isTrue (by rw [h]) else isFalse (by simp [h])
    | Except.error x, Except.error y =>
      if h : x = y then isTrue (by rw [h]) else isFalse (by simp [h])
    | Except.ok _, Except.error _ => isFalse (by simp)
    | Except.error _, Except.ok _ => isFalse (by simp)

/-- The state of a GridDb: the four trees, the backup key cache, the
cached metadata, and the id-generator state of the engine. -/
structure DbState where
  working_tree : Tree
  backup_tree : Tree
  version_change_tree : List (Nat × VersionChanges)
  version_graph_tree : List (Nat × VersionNode)
  backup_key_cache : List DbKey3i32
  cached_meta : GridDbMetadata
  next_id : Nat
deriving DecidableEq

/-- BTreeSet insert on the backup key cache (sorted, no duplicates). -/
def cacheInsert (keys : List DbKey3i32) (k : DbKey3i32) : List DbKey3i32 :=
  match keys with
  | [] => [k]
  | k2 :: rest =>
    if k = k2 then k2 :: rest
    else if keyLt k k2 then k :: k2 :: rest
    else k2 :: cacheInsert rest k

/-- write_changes_to_working_tree of working_tree.rs: apply each encoded
change in order (insert stores the serialized Insert, Remove deletes the
entry), and for every decoded key not in the backup key cache emit a
reverse change holding the prior value, or the prebuilt serialized
Remove when there was none. -/
def write_changes_to_working_tree (txn : Tree) (backup_key_cache : List DbKey3i32) :
    List (Bytes × Change) → Tree × List (Bytes × Change)
  | [] => (txn, [])
  | (key_bytes, change) :: rest =>
    let key := DbKey3i32.from_sled_key key_bytes
    let old_value := aGet txn key_bytes
    let txn2 :=
      match change with
      | Change.Insert _ => aPut txn key_bytes change
      | Change.Remove => (aDel txn key_bytes).2
    let next := write_changes_to_working_tree txn2 backup_key_cache rest
    if key ∈ backup_key_cache then next
    else
      match old_value with
      | some old => (next.1, (key_bytes, old) :: next.2)
      | none => (next.1, (key_bytes, Change.Remove) :: next.2)

/-- write_changes_to_backup_tree of backup_tree.rs: write each reverse
change verbatim. -/
def write_changes_to_backup_tree (txn : Tree) (changes : List (Bytes × Change)) : Tree :=
  changes.foldl (fun t kv => aPut t kv.1 kv.2) txn

/-- GridDb.write_working_version of db.rs: one transaction over the
working and backup trees; the backup key cache is extended with the
decoded keys of the emitted reverse changes only after the transaction
commits (txn_commits models the engine committing or failing it). -/
def write_working_version (s : DbState) (changes : List (Bytes × Change))
    (txn_commits : Bool) : DbState :=
  let applied := write_changes_to_working_tree s.working_tree s.backup_key_cache changes
  let backup2 := write_changes_to_backup_tree s.backup_tree applied.2
  let new_backup_keys := applied.2.map (fun kv => DbKey3i32.from_sled_key kv.1)
  if txn_commits then
    { s with
      working_tree := applied.1
      backup_tree := backup2
      backup_key_cache := new_backup_keys.foldl cacheInsert s.backup_key_cache }
  else s

/-- GridDb.read_working_version of db.rs: point lookup in the working
tree. -/
def read_working_version (s : DbState) (key : DbKey3i32) : Option Change :=
  aGet s.working_tree key.as_sled_key

/-- commit_backup of backup_tree.rs: drain the backup entry of every
cached key into a VersionChanges; a cached key missing from the backup
tree is the fatal I1 inconsistency, modelled as none. -/
def commit_backup (txn : Tree) : List DbKey3i32 → Option (Tree × VersionChanges)
  | [] => some (txn, [])
  | key :: rest =>
    match aDel txn key.as_sled_key with
    | (some change, txn2) =>
      (commit_backup txn2 rest).map (fun r => (r.1, (key, change) :: r.2))
    | (none, _) => none

/-- clear_backup of backup_tree.rs: remove every backup entry named by
the cache. -/
def clear_backup (txn : Tree) (keys : List DbKey3i32) : Tree :=
  keys.foldl (fun t k => (aDel t k.as_sled_key).2) txn

/-- archive_version of version_change_tree.rs: serialize and store the
delta under the version, overwriting any present entry. -/
def archive_version (txn : List (Nat × VersionChanges)) (version : Nat)
    (changes : VersionChanges) : List (Nat × VersionChanges) :=
  aPut txn version changes

/-- remove_archived_version of version_change_tree.rs: atomic
remove-and-return of the archived delta. -/
def remove_archived_version (txn : List (Nat × VersionChanges)) (version : Nat) :
    Option VersionChanges × List (Nat × VersionChanges) :=
  aDel txn version

/-- link_version of the version graph: write the edge of a child. -/
def link_version (txn : List (Nat × VersionNode)) (version : Nat) (node : VersionNode) :
    List (Nat × VersionNode) :=
  aPut txn version node

/-- GridDb.commit_working_version of db.rs: no-op on an empty backup
cache; otherwise one transaction that archives the drained backup under
the parent (or clears the backup when there is no parent), links the old
working version with the old parent, and rotates the metadata with a
freshly generated id.  none models the fatal backup panic. -/
def commit_working_version (s : DbState) : Option DbState :=
  if s.backup_key_cache = [] then some s
  else
    let afterBackup : Option (Tree × List (Nat × VersionChanges)) :=
      match s.cached_meta.parent_version with
      | some parent =>
        (commit_backup s.backup_tree s.backup_key_cache).map
          (fun r => (r.1, archive_version s.version_change_tree parent r.2))
      | none => some (clear_backup s.backup_tree s.backup_key_cache, s.version_change_tree)
    afterBackup.map (fun r =>
      { working_tree := s.working_tree
        backup_tree := r.1
        version_change_tree := r.2
        version_graph_tree := link_version s.version_graph_tree
          s.cached_meta.working_version ⟨s.cached_meta.parent_version⟩
        backup_key_cache := []
        cached_meta :=
          { grandparent_version := s.cached_meta.parent_version
            parent_version := some s.cached_meta.working_version
            working_version := s.next_id }
        next_id := s.next_id + 1 })

/-- Modelled from the spec: walk parent pointers from v to the root
(version_graph_tree.rs is not under src), returning the chain; none when
a node is missing before the root or the fuel runs out. -/
def chainToRoot (graph : List (Nat × VersionNode)) : Nat → Nat → Option (List Nat)
  | 0, _ => none
  | fuel + 1, v =>
    match aGet graph v with
    | none => none
    | some node =>
      match node.parent_version with
      | none => some [v]
      | some p => (chainToRoot graph fuel p).map (fun c => v :: c)

/-- The result of path finding: the version path and the graph parent of
its target. -/
structure PathResult where
  path : List Nat
  end_parent : Option Nat
deriving DecidableEq

/-- Modelled from the spec: find_path_between_versions of the missing
version_graph_tree.rs — walk both chains to the root, take the lowest
common ancestor by intersection, and emit the chain of a up to the LCA
followed by the reversed chain of b below it, carrying the graph parent
of b. -/
def find_path_between_versions (graph : List (Nat × VersionNode)) (a b : Nat) :
    Except AbortReason PathResult :=
  match chainToRoot graph (graph.length + 1) a with
  | none => Except.error AbortReason.NoPathExistsToRoot
  | some chainA =>
    match chainToRoot graph (graph.length + 1) b with
    | none => Except.error AbortReason.NoPathExistsToRoot
    | some chainB =>
      match chainA.find? (fun v => chainB.contains v) with
      | none => Except.error AbortReason.NoPathExists
      | some lca =>
        Except.ok
          { path := chainA.takeWhile (fun v => v != lca) ++
              lca :: (chainB.takeWhile (fun v => v != lca)).reverse
            end_parent :=
              match aGet graph b with
              | some node => node.parent_version
              | none => none }

/-- VersionChanges.from of an EncodedChanges: decode each key and
collect the pairs into the ordered map (BTreeMap from_iter). -/
def vcInsert : VersionChanges → DbKey3i32 → Change → VersionChanges
  | [], k, c => [(k, c)]
  | (k2, c2) :: rest, k, c =>
    if k = k2 then (k, c) :: rest
    else if keyLt k k2 then (k, c) :: (k2, c2) :: rest
    else (k2, c2) :: vcInsert rest k c

/-- VersionChanges.from of an EncodedChanges, decoding the keys. -/
def versionChangesOfEncoded (changes : List (Bytes × Change)) : VersionChanges :=
  changes.foldl (fun m kv => vcInsert m (DbKey3i32.from_sled_key kv.1) kv.2) []

/-- The replay loop of branch_from_version over adjacent path pairs:
take the archived delta of the next version (aborting when missing),
re-encode it through a ChangeEncoder, apply it to the working tree
against an empty backup cache, and archive the reverse delta under the
previous version. -/
def replayPath (working : Tree) (changeTree : List (Nat × VersionChanges)) :
    List Nat → Except AbortReason (Tree × List (Nat × VersionChanges))
  | [] => Except.ok (working, changeTree)
  | [_] => Except.ok (working, changeTree)
  | prev :: next :: rest =>
    match remove_archived_version changeTree next with
    | (some changes, changeTree2) =>
      let encoder := changes.foldl (fun m kv => add_change m kv.1 kv.2) []
      let applied := write_changes_to_working_tree working [] (ChangeEncoder.encode encoder)
      let changeTree3 := archive_version changeTree2 prev (versionChangesOfEncoded applied.2)
      replayPath applied.1 changeTree3 (next :: rest)
    | (none, _) => Except.error AbortReason.MissingVersionChanges

/-- GridDb.branch_from_version of db.rs: always commit first; when the
post-commit metadata has a parent, run one transaction that replays the
archived deltas along the graph path to the new parent and rotates the
metadata; an abort rolls that transaction back, leaving the post-commit
state.  none models the commit panic. -/
def branch_from_version (s : DbState) (new_parent_version : Nat) :
    Option (Except AbortReason Unit × DbState) :=
  (commit_working_version s).map (fun s1 =>
    match s1.cached_meta.parent_version with
    | none => (Except.ok (), s1)
    | some old_parent =>
      match find_path_between_versions s1.version_graph_tree old_parent
          new_parent_version with
      | Except.error e => (Except.error e, s1)
      | Except.ok found =>
        match replayPath s1.working_tree s1.version_change_tree found.path with
        | Except.error e => (Except.error e, s1)
        | Except.ok replayed =>
          (Except.ok (),
            { s1 with
              working_tree := replayed.1
              version_change_tree := replayed.2
              cached_meta :=
                { grandparent_version := found.end_parent
                  parent_version := some new_parent_version
                  working_version := s1.next_id }
              next_id := s1.next_id + 1 }))

/-- Modelled from the spec: the state of a freshly opened database
(open_meta_tree of the missing meta_tree.rs initializes the metadata
with no parent and working version 0 from the id generator). -/
def openFresh : DbState :=
  { working_tree := []
    backup_tree := []
    version_change_tree := []
    version_graph_tree := []
    backup_key_cache := []
    cached_meta := { grandparent_version := none, parent_version := none, working_version := 0 }
    next_id := 1 }

/-- The working tree holds only serialized Insert changes. -/
def workingInsertOnly (t : Tree) : Prop :=
  ∀ p ∈ t, ∃ data, p.2 = Change.Insert data

/-- The key used by the end-to-end scenarios (level 1, Morton 0). -/
def scenarioKey : DbKey3i32 := ⟨1, 0⟩

/-- A small add_change event sequence with a duplicated key, used to
instantiate the encoder contract. -/
def witnessEvents : List (DbKey3i32 × Change) :=
  [(⟨1, 5⟩, Change.Insert [0]), (⟨1, 3⟩, Change.Remove), (⟨1, 5⟩, Change.Insert [7])]

/-- An EncodedChanges carrying a single change, built by the encoder. -/
def encodeSingle (k : DbKey3i32) (c : Change) : List (Bytes × Change) :=
  ChangeEncoder.encode (addedChanges [(k, c)])

/-- The oldest-value scenario of the spec: commit a version holding
Insert [0] at the scenario key, write Insert [1] then Insert [2] in the
next working version, commit, and branch back to the first version. -/
def oldestScenario : Option (Except AbortReason Unit × DbState) :=
  (commit_working_version
      (write_working_version openFresh
        (encodeSingle scenarioKey (Change.Insert [0])) true)).bind fun s1 =>
    (commit_working_version
        (write_working_version
          (write_working_version s1 (encodeSingle scenarioKey (Change.Insert [1])) true)
          (encodeSingle scenarioKey (Change.Insert [2])) true)).bind fun s2 =>
      branch_from_version s2 0

/-- A reachable state whose change archive misses the entry of version 0
while the backup cache is non-empty: obtained from a fresh database by
write Insert [0], commit, write Remove, commit, write Insert [5], and a
manual deletion of archive entry 0 (spec scenario 6). -/
def missingArchivePre : DbState :=
  { working_tree := [([1, 0, 0, 0, 0, 0, 0, 0, 0, 0, 0, 0, 0], Change.Insert [5])]
    backup_tree := [([1, 0, 0, 0, 0, 0, 0, 0, 0, 0, 0, 0, 0], Change.Remove)]
    version_change_tree := []
    version_graph_tree := [(1, ⟨some 0⟩), (0, ⟨none⟩)]
    backup_key_cache := [⟨1, 0⟩]
    cached_meta := ⟨some 0, some 1, 2⟩
    next_id := 3 }

/-- The state reached from missingArchivePre by the implicit commit that
branch_from_version performs before its own transaction. -/
def missingArchivePost : DbState :=
  { working_tree := [([1, 0, 0, 0, 0, 0, 0, 0, 0, 0, 0, 0, 0], Change.Insert [5])]
    backup_tree := []
    version_change_tree := [(1, [(⟨1, 0⟩, Change.Remove)])]
    version_graph_tree := [(2, ⟨some 1⟩), (1, ⟨some 0⟩), (0, ⟨none⟩)]
    backup_key_cache := []
    cached_meta := ⟨some 1, some 2, 3⟩
    next_id := 4 }

theorem toBeBytes_length (w n : Nat) : (toBeBytes w n).length = w := by
  induction w generalizing n with
  | zero => rfl
  | succ w ih => simp [toBeBytes, ih]

theorem foldl_toBeBytes (w : Nat) : ∀ n acc, n < 2 ^ (8 * w) →
    (toBeBytes w n).foldl (fun acc b => 256 * acc + b) acc = acc * 2 ^ (8 * w) + n := by
  induction w with
  | zero =>
    intro n acc hn
    norm_num at hn
    subst hn
    simp [toBeBytes]
  | succ w ih =>
    intro n acc hn
    have hB : 0 < 2 ^ (8 * w) := Nat.pos_pow_of_pos _ (by norm_num)
    have hsplit : 2 ^ (8 * (w + 1)) = 2 ^ (8 * w) * 256 := by ring
    have hdiv : n / 2 ^ (8 * w) < 256 :=
      Nat.div_lt_of_lt_mul (by rw [hsplit] at hn; exact hn)
    have hmod : n % 2 ^ (8 * w) < 2 ^ (8 * w) := Nat.mod_lt _ hB
    simp only [toBeBytes, List.foldl_cons]
    rw [Nat.mod_eq_of_lt hdiv, ih _ _ hmod]
    have hnm := Nat.div_add_mod n (2 ^ (8 * w))
    rw [hsplit]
    nlinarith [hnm]

theorem fromBeBytes_toBeBytes {w n : Nat} (hn : n < 2 ^ (8 * w)) :
    fromBeBytes (toBeBytes w n) = n := by
  unfold fromBeBytes
  rw [foldl_toBeBytes w n 0 hn]
  simp

theorem lexLtB_cons_same (a : Nat) (xs ys : List Nat) :
    lexLtB (a :: xs) (a :: ys) = lexLtB xs ys := by
  simp [lexLtB]

theorem lexLtB_cons_lt {a b : Nat} (h : a < b) (xs ys : List Nat) :
    lexLtB (a :: xs) (b :: ys) = true := by
  simp [lexLtB, h]

theorem lexLtB_toBeBytes (w : Nat) : ∀ m n : Nat, m < 2 ^ (8 * w) → n < 2 ^ (8 * w) →
    (lexLtB (toBeBytes w m) (toBeBytes w n) = decide (m < n)) := by
  induction w with
  | zero =>
    intro m n hm hn
    norm_num at hm hn
    subst hm
    subst hn
    simp [toBeBytes, lexLtB]
  | succ w ih =>
    intro m n hm hn
    have hB : 0 < 2 ^ (8 * w) := Nat.pos_pow_of_pos _ (by norm_num)
    have hsplit : 2 ^ (8 * (w + 1)) = 2 ^ (8 * w) * 256 := by ring
    have hmdiv : m / 2 ^ (8 * w) < 256 :=
      Nat.div_lt_of_lt_mul (by rw [hsplit] at hm; exact hm)
    have hndiv : n / 2 ^ (8 * w) < 256 :=
      Nat.div_lt_of_lt_mul (by rw [hsplit] at hn; exact hn)
    simp only [toBeBytes, Nat.mod_eq_of_lt hmdiv, Nat.mod_eq_of_lt hndiv]
    have hem := Nat.div_add_mod m (2 ^ (8 * w))
    have hen := Nat.div_add_mod n (2 ^ (8 * w))
    have hmm : m % 2 ^ (8 * w) < 2 ^ (8 * w) := Nat.mod_lt _ hB
    have hnn : n % 2 ^ (8 * w) < 2 ^ (8 * w) := Nat.mod_lt _ hB
    rcases Nat.lt_trichotomy (m / 2 ^ (8 * w)) (n / 2 ^ (8 * w)) with hlt | heq | hgt
    · rw [lexLtB_cons_lt hlt]
      have hstep : 2 ^ (8 * w) * (m / 2 ^ (8 * w)) + 2 ^ (8 * w) ≤
          2 ^ (8 * w) * (n / 2 ^ (8 * w)) := by
        have hmul := Nat.mul_le_mul_left (2 ^ (8 * w)) (Nat.succ_le_of_lt hlt)
        calc 2 ^ (8 * w) * (m / 2 ^ (8 * w)) + 2 ^ (8 * w)
            = 2 ^ (8 * w) * (m / 2 ^ (8 * w) + 1) := by ring
          _ ≤ 2 ^ (8 * w) * (n / 2 ^ (8 * w)) := hmul
      have hmn : m < n := by
        calc m = 2 ^ (8 * w) * (m / 2 ^ (8 * w)) + m % 2 ^ (8 * w) := hem.symm
          _ < 2 ^ (8 * w) * (m / 2 ^ (8 * w)) + 2 ^ (8 * w) := Nat.add_lt_add_left hmm _
          _ ≤ 2 ^ (8 * w) * (n / 2 ^ (8 * w)) := hstep
          _ ≤ 2 ^ (8 * w) * (n / 2 ^ (8 * w)) + n % 2 ^ (8 * w) := Nat.le_add_right _ _
          _ = n := hen
      simp [hmn]
    · rw [heq, lexLtB_cons_same, ih _ _ hmm hnn]
      have hiff : m % 2 ^ (8 * w) < n % 2 ^ (8 * w) ↔ m < n := by
        constructor
        · intro h; nlinarith [heq]
        · intro h; nlinarith [heq]
      simp [hiff]
    · have hnm : ¬ m < n := by
        intro hcon
        have := Nat.div_le_div_right (c := 2 ^ (8 * w)) (Nat.le_of_lt hcon)
        omega
      simp only [lexLtB, if_neg (Nat.lt_asymm hgt), if_pos hgt]
      simp [hnm]

theorem toBeBytes_succ_of_lt {w n : Nat} (h : n < 2 ^ (8 * w)) :
    toBeBytes (w + 1) n = 0 :: toBeBytes w n := by
  have hd : n / 2 ^ (8 * w) = 0 := Nat.div_eq_of_lt h
  have hm : n % 2 ^ (8 * w) = n := Nat.mod_eq_of_lt h
  simp [toBeBytes, hd, hm]

theorem toBeBytes_sixteen_drop_four {m : Nat} (h : m < 2 ^ 96) :
    (toBeBytes 16 m).drop 4 = toBeBytes 12 m := by
  have h15 : m < 2 ^ (8 * 15) := lt_of_lt_of_le h (by norm_num)
  have h14 : m < 2 ^ (8 * 14) := lt_of_lt_of_le h (by norm_num)
  have h13 : m < 2 ^ (8 * 13) := lt_of_lt_of_le h (by norm_num)
  have h12 : m < 2 ^ (8 * 12) := lt_of_lt_of_le h (by norm_num)
  rw [show (16 : Nat) = 15 + 1 from rfl, toBeBytes_succ_of_lt h15,
    show (15 : Nat) = 14 + 1 from rfl, toBeBytes_succ_of_lt h14,
    show (14 : Nat) = 13 + 1 from rfl, toBeBytes_succ_of_lt h13,
    show (13 : Nat) = 12 + 1 from rfl, toBeBytes_succ_of_lt h12]
  rfl

theorem fromBeBytes_cons_zero (l : List Nat) : fromBeBytes (0 :: l) = fromBeBytes l := rfl

theorem DbKey2i32.sled2_roundtrip {k : DbKey2i32} (hm : k.morton < 2 ^ 64) :
    DbKey2i32.from_sled_key k.as_sled_key = k := by
  obtain ⟨l, m⟩ := k
  simp only at hm
  have hm8 : m < 2 ^ (8 * 8) := by norm_num at hm ⊢; exact hm
  simp [DbKey2i32.as_sled_key, DbKey2i32.from_sled_key, fromBeBytes_toBeBytes hm8]

theorem DbKey3i32.sled3_roundtrip {k : DbKey3i32} (hm : k.morton < 2 ^ 96) :
    DbKey3i32.from_sled_key k.as_sled_key = k := by
  obtain ⟨l, m⟩ := k
  simp only at hm
  have hm12 : m < 2 ^ (8 * 12) := lt_of_lt_of_le hm (by norm_num)
  simp [DbKey3i32.as_sled_key, DbKey3i32.from_sled_key, toBeBytes_sixteen_drop_four hm,
    fromBeBytes_cons_zero, fromBeBytes_toBeBytes hm12]

theorem DbKey3i32.as_sled_key_inj {a b : DbKey3i32} (ha : a.morton < 2 ^ 96)
    (hb : b.morton < 2 ^ 96) (h : a.as_sled_key = b.as_sled_key) : a = b := by
  have hc := congrArg DbKey3i32.from_sled_key h
  rwa [DbKey3i32.sled3_roundtrip ha, DbKey3i32.sled3_roundtrip hb] at hc

/-- C1: decoding the encoded fixed-width byte form of any representable
key (2D and 3D shapes, any level) returns the original key. -/
theorem key_codec_roundtrip :
    (∀ k : DbKey2i32, k.level < 256 → k.morton < 2 ^ 64 →
      DbKey2i32.from_sled_key k.as_sled_key = k) ∧
    (∀ k : DbKey3i32, k.level < 256 → k.morton < 2 ^ 96 →
      DbKey3i32.from_sled_key k.as_sled_key = k) :=
  ⟨fun _ _ hm => DbKey2i32.sled2_roundtrip hm, fun _ _ hm => DbKey3i32.sled3_roundtrip hm⟩

theorem key_codec_roundtrip_witness :
    ((3 : Nat) < 256 ∧ (5 : Nat) < 2 ^ 64 ∧
      DbKey2i32.from_sled_key (DbKey2i32.as_sled_key ⟨3, 5⟩) = ⟨3, 5⟩) ∧
    ((2 : Nat) < 256 ∧ (7 : Nat) < 2 ^ 96 ∧
      DbKey3i32.from_sled_key (DbKey3i32.as_sled_key ⟨2, 7⟩) = ⟨2, 7⟩) :=
  ⟨⟨by norm_num, by norm_num, key_codec_roundtrip.1 ⟨3, 5⟩ (by norm_num) (by norm_num)⟩,
   ⟨by norm_num, by norm_num, key_codec_roundtrip.2 ⟨2, 7⟩ (by norm_num) (by norm_num)⟩⟩

/-- C6: within a level the encoded byte order is exactly the Morton
order, and keys of a lower level come strictly before keys of a higher
level in byte order. -/
theorem key_order_isomorphism :
    (∀ A B : DbKey2i32, A.level = B.level → A.morton < 2 ^ 64 → B.morton < 2 ^ 64 →
      (lexLtB A.as_sled_key B.as_sled_key = true ↔ A.morton < B.morton)) ∧
    (∀ A B : DbKey3i32, A.level = B.level → A.morton < 2 ^ 96 → B.morton < 2 ^ 96 →
      (lexLtB A.as_sled_key B.as_sled_key = true ↔ A.morton < B.morton)) ∧
    (∀ A B : DbKey2i32, A.level < B.level →
      lexLtB A.as_sled_key B.as_sled_key = true) ∧
    (∀ A B : DbKey3i32, A.level < B.level →
      lexLtB A.as_sled_key B.as_sled_key = true) := by
  refine ⟨?_, ?_, ?_, ?_⟩
  · rintro ⟨la, ma⟩ ⟨lb, mb⟩ hl hma hmb
    have hma8 : ma < 2 ^ (8 * 8) := by norm_num at hma ⊢; exact hma
    have hmb8 : mb < 2 ^ (8 * 8) := by norm_num at hmb ⊢; exact hmb
    simp only at hl
    simp [DbKey2i32.as_sled_key, hl, lexLtB_cons_same,
      lexLtB_toBeBytes 8 _ _ hma8 hmb8]
  · rintro ⟨la, ma⟩ ⟨lb, mb⟩ hl hma hmb
    have hma12 : ma < 2 ^ (8 * 12) := lt_of_lt_of_le hma (by norm_num)
    have hmb12 : mb < 2 ^ (8 * 12) := lt_of_lt_of_le hmb (by norm_num)
    simp only at hl
    simp [DbKey3i32.as_sled_key, hl, toBeBytes_sixteen_drop_four hma,
      toBeBytes_sixteen_drop_four hmb, lexLtB_cons_same,
      lexLtB_toBeBytes 12 _ _ hma12 hmb12]
  · rintro ⟨la, ma⟩ ⟨lb, mb⟩ hl
    exact lexLtB_cons_lt hl _ _
  · rintro ⟨la, ma⟩ ⟨lb, mb⟩ hl
    exact lexLtB_cons_lt hl _ _

theorem key_order_isomorphism_witness :
    ((DbKey2i32.mk 1 4).level = (DbKey2i32.mk 1 9).level ∧ (4 : Nat) < 2 ^ 64 ∧
      (9 : Nat) < 2 ^ 64 ∧
      (lexLtB (DbKey2i32.as_sled_key ⟨1, 4⟩) (DbKey2i32.as_sled_key ⟨1, 9⟩) = true ↔
        (4 : Nat) < 9)) ∧
    ((1 : Nat) < 2 ∧
      lexLtB (DbKey3i32.as_sled_key ⟨1, 9⟩) (DbKey3i32.as_sled_key ⟨2, 4⟩) = true) :=
  ⟨⟨rfl, by norm_num, by norm_num,
      key_order_isomorphism.1 ⟨1, 4⟩ ⟨1, 9⟩ rfl (by norm_num) (by norm_num)⟩,
   ⟨by norm_num, key_order_isomorphism.2.2.2 ⟨1, 9⟩ ⟨2, 4⟩ (by norm_num)⟩⟩

theorem aGet_aRemoveKey_self {α β : Type} [DecidableEq α] (k : α) (m : List (α × β)) :
    aGet (aRemoveKey k m) k = none := by
  induction m with
  | nil => rfl
  | cons p rest ih =>
    by_cases hp : p.1 = k
    · simp [aRemoveKey, hp, ih]
    · simp [aRemoveKey, hp, aGet, ih]

theorem aGet_aRemoveKey_ne {α β : Type} [DecidableEq α] {k k2 : α} (m : List (α × β))
    (h : k2 ≠ k) : aGet (aRemoveKey k m) k2 = aGet m k2 := by
  induction m with
  | nil => rfl
  | cons p rest ih =>
    by_cases hp : p.1 = k
    · have hp2 : ¬ p.1 = k2 := by
        rw [hp]
        exact fun he => h he.symm
      simp [aRemoveKey, hp, aGet, hp2, ih, Ne.symm h]
    · simp [aRemoveKey, hp, aGet, ih]

theorem aGet_aPut_same {α β : Type} [DecidableEq α] (m : List (α × β)) (k : α) (v : β) :
    aGet (aPut m k v) k = some v := by
  simp [aPut, aGet]

theorem aGet_aPut_ne {α β : Type} [DecidableEq α] (m : List (α × β)) {k k2 : α}
    (h : k2 ≠ k) (v : β) : aGet (aPut m k v) k2 = aGet m k2 := by
  have hk : ¬ k = k2 := fun he => h he.symm
  simp [aPut, aGet, hk, aGet_aRemoveKey_ne m h]

theorem mem_aRemoveKey_sub {α β : Type} [DecidableEq α] {k : α} {m : List (α × β)}
    {p : α × β} (h : p ∈ aRemoveKey k m) : p ∈ m := by
  induction m with
  | nil => simpa [aRemoveKey] using h
  | cons q rest ih =>
    by_cases hq : q.1 = k
    · rw [aRemoveKey, if_pos hq] at h
      exact List.mem_cons_of_mem _ (ih h)
    · rw [aRemoveKey, if_neg hq] at h
      rcases List.mem_cons.1 h with h1 | h1
      · exact h1 ▸ List.mem_cons_self _ _
      · exact List.mem_cons_of_mem _ (ih h1)

theorem not_mem_aRemoveKey_keys {α β : Type} [DecidableEq α] (k : α) (m : List (α × β)) :
    k ∉ (aRemoveKey k m).map Prod.fst := by
  induction m with
  | nil => simp [aRemoveKey]
  | cons p rest ih =>
    by_cases hp : p.1 = k
    · simpa [aRemoveKey, hp] using ih
    · simp only [aRemoveKey, if_neg hp, List.map_cons, List.mem_cons]
      rintro (h | h)
      · exact hp h.symm
      · exact ih h

theorem aRemoveKey_keys_nodup {α β : Type} [DecidableEq α] (k : α) {m : List (α × β)}
    (h : (m.map Prod.fst).Nodup) : ((aRemoveKey k m).map Prod.fst).Nodup := by
  induction m with
  | nil => simpa [aRemoveKey] using h
  | cons p rest ih =>
    simp only [List.map_cons, List.nodup_cons] at h
    by_cases hp : p.1 = k
    · rw [aRemoveKey, if_pos hp]
      exact ih h.2
    · rw [aRemoveKey, if_neg hp]
      simp only [List.map_cons, List.nodup_cons]
      refine ⟨fun hmem => ?_, ih h.2⟩
      rcases List.mem_map.1 hmem with ⟨q, hq, hqe⟩
      exact h.1 (List.mem_map.2 ⟨q, mem_aRemoveKey_sub hq, hqe⟩)

theorem aPut_keys_nodup {α β : Type} [DecidableEq α] {m : List (α × β)}
    (h : (m.map Prod.fst).Nodup) (k : α) (v : β) :
    ((aPut m k v).map Prod.fst).Nodup := by
  simp only [aPut, List.map_cons, List.nodup_cons]
  exact ⟨not_mem_aRemoveKey_keys k m, aRemoveKey_keys_nodup k h⟩

theorem aGet_eq_some_iff_mem {α β : Type} [DecidableEq α] {m : List (α × β)}
    (h : (m.map Prod.fst).Nodup) (k : α) (v : β) :
    aGet m k = some v ↔ (k, v) ∈ m := by
  induction m with
  | nil => simp [aGet]
  | cons p rest ih =>
    simp only [List.map_cons, List.nodup_cons] at h
    by_cases hp : p.1 = k
    · rw [aGet, if_pos hp]
      constructor
      · intro hv
        have : (k, v) = p := by
          obtain ⟨p1, p2⟩ := p
          simp only at hp
          simp only [Option.some.injEq] at hv
          rw [hp, hv]

        exact this ▸ List.mem_cons_self _ _
      · intro hmem
        rcases List.mem_cons.1 hmem with h1 | h1
        · rw [← h1]
        · exact absurd (List.mem_map.2 ⟨(k, v), h1, rfl⟩) (hp ▸ h.1)
    · rw [aGet, if_neg hp]
      rw [ih h.2]
      constructor
      · exact fun h1 => List.mem_cons_of_mem _ h1
      · intro h1
        rcases List.mem_cons.1 h1 with h2 | h2
        · exact absurd (congrArg Prod.fst h2.symm) hp
        · exact h2

/-- C10: deserializing the serialization of any Change yields the value
back; Remove serializes to a fixed 12-byte buffer whose deserialization
is Remove. -/
theorem change_codec_roundtrip :
    (∀ c : Change, Change.deserializeChange (Change.serializeChange c) = some c) ∧
    (Change.serializeChange Change.Remove).length = 12 := by
  refine ⟨fun c => ?_, by decide⟩
  cases c with
  | Insert data => rfl
  | Remove => decide

theorem commit_of_empty_cache (s : DbState) (h : s.backup_key_cache = []) :
    commit_working_version s = some s := by
  simp [commit_working_version, h]

/-- C4: commit on an empty backup cache is a strict no-op: the state,
its cached metadata and every tree included, is returned unchanged. -/
theorem commit_empty_noop (s : DbState) (h : s.backup_key_cache = []) :
    commit_working_version s = some s :=
  commit_of_empty_cache s h

theorem commit_empty_noop_witness :
    openFresh.backup_key_cache = [] ∧ commit_working_version openFresh = some openFresh :=
  ⟨rfl, commit_empty_noop openFresh rfl⟩

theorem mem_cacheInsert (keys : List DbKey3i32) (k k2 : DbKey3i32) :
    k2 ∈ cacheInsert keys k ↔ k2 = k ∨ k2 ∈ keys := by
  induction keys with
  | nil => simp [cacheInsert]
  | cons k3 rest ih =>
    by_cases h1 : k = k3
    · subst h1
      simp only [cacheInsert, if_pos rfl]
      constructor
      · exact fun h => Or.inr h
      · rintro (h | h)
        · exact h ▸ List.mem_cons_self _ _
        · exact h
    · by_cases h2 : keyLt k k3
      · simp only [cacheInsert, if_neg h1, if_pos h2, List.mem_cons]
      · simp only [cacheInsert, if_neg h1, if_neg h2, List.mem_cons, ih]
        tauto

theorem mem_foldl_cacheInsert (ks : List DbKey3i32) :
    ∀ (init : List DbKey3i32) (k : DbKey3i32),
      k ∈ ks.foldl cacheInsert init ↔ k ∈ init ∨ k ∈ ks := by
  induction ks with
  | nil => simp
  | cons k3 rest ih =>
    intro init k
    simp only [List.foldl_cons, ih, mem_cacheInsert, List.mem_cons]
    tauto

/-- C7: a failed write transaction leaves the whole state untouched, and
on success the backup key cache afterwards holds exactly its old keys
plus the decoded keys of the emitted reverse changes. -/
theorem write_atomicity_cache_gating :
    (∀ s changes, write_working_version s changes false = s) ∧
    (∀ s changes (k : DbKey3i32),
      k ∈ (write_working_version s changes true).backup_key_cache ↔
        (k ∈ s.backup_key_cache ∨
          k ∈ (write_changes_to_working_tree s.working_tree s.backup_key_cache
            changes).2.map fun kv => DbKey3i32.from_sled_key kv.1)) := by
  constructor
  · intro s changes
    rfl
  · intro s changes k
    show k ∈ ((write_changes_to_working_tree s.working_tree s.backup_key_cache
        changes).2.map (fun kv => DbKey3i32.from_sled_key kv.1)).foldl cacheInsert
          s.backup_key_cache ↔ _
    rw [mem_foldl_cacheInsert]

theorem workingInsertOnly_aRemoveKey {k : Bytes} {t : Tree} (h : workingInsertOnly t) :
    workingInsertOnly (aRemoveKey k t) :=
  fun p hp => h p (mem_aRemoveKey_sub hp)

theorem workingInsertOnly_aPut_insert {t : Tree} (h : workingInsertOnly t)
    (k : Bytes) (data : List Nat) :
    workingInsertOnly (aPut t k (Change.Insert data)) := by
  intro p hp
  simp only [aPut, List.mem_cons] at hp
  rcases hp with h1 | h1
  · exact ⟨data, by rw [h1]⟩
  · exact workingInsertOnly_aRemoveKey h p h1

theorem write_changes_cons_fst (t : Tree) (cache : List DbKey3i32) (kb : Bytes)
    (c : Change) (rest : List (Bytes × Change)) :
    (write_changes_to_working_tree t cache ((kb, c) :: rest)).1 =
      (write_changes_to_working_tree
        (match c with
          | Change.Insert _ => aPut t kb c
          | Change.Remove => (aDel t kb).2) cache rest).1 := by
  by_cases hmem : DbKey3i32.from_sled_key kb ∈ cache <;>
    cases hold : aGet t kb <;>
      simp [write_changes_to_working_tree, hmem, hold]

theorem write_changes_preserves_insert_only (cache : List DbKey3i32) :
    ∀ (changes : List (Bytes × Change)) (t : Tree), workingInsertOnly t →
      workingInsertOnly (write_changes_to_working_tree t cache changes).1 := by
  intro changes
  induction changes with
  | nil => exact fun t h => h
  | cons kv rest ih =>
    intro t h
    obtain ⟨kb, c⟩ := kv
    rw [write_changes_cons_fst]
    cases c with
    | Insert data => exact ih _ (workingInsertOnly_aPut_insert h kb data)
    | Remove => exact ih _ (workingInsertOnly_aRemoveKey h)

theorem commit_preserves_working {s s2 : DbState} (h : commit_working_version s = some s2) :
    s2.working_tree = s.working_tree := by
  unfold commit_working_version at h
  by_cases hc : s.backup_key_cache = []
  · rw [if_pos hc] at h
    cases h
    rfl
  · rw [if_neg hc] at h
    cases hp : s.cached_meta.parent_version with
    | none =>
      rw [hp] at h
      simp only [Option.map] at h
      cases h
      rfl
    | some parent =>
      rw [hp] at h
      rcases Option.map_eq_some'.1 h with ⟨r, hr, hs2⟩
      rcases Option.map_eq_some'.1 hr with ⟨r0, hr0, hrr⟩
      rw [← hs2]

theorem replayPath_preserves_insert_only :
    ∀ (path : List Nat) (w : Tree) (ct : List (Nat × VersionChanges))
      (r : Tree × List (Nat × VersionChanges)),
      replayPath w ct path = Except.ok r → workingInsertOnly w → workingInsertOnly r.1 := by
  intro path
  induction path with
  | nil =>
    intro w ct r h hw
    cases h
    exact hw
  | cons prev tail ih =>
    intro w ct r h hw
    cases tail with
    | nil =>
      cases h
      exact hw
    | cons next rest =>
      rw [replayPath] at h
      simp only [remove_archived_version, aDel] at h
      cases hag : aGet ct next with
      | none =>
        rw [hag] at h
        cases h
      | some changes =>
        rw [hag] at h
        exact ih _ _ _ h (write_changes_preserves_insert_only _ _ _ hw)

/-- C8: only serialized Insert changes ever reside in the working tree:
the invariant is preserved by applying an encoded change batch, by
write_working_version (success or failure), by commit_working_version,
and by branch_from_version, since applying a Remove deletes the entry
instead of storing it. -/
theorem working_tree_insert_only :
    (∀ t cache changes, workingInsertOnly t →
      workingInsertOnly (write_changes_to_working_tree t cache changes).1) ∧
    (∀ s changes b, workingInsertOnly s.working_tree →
      workingInsertOnly (write_working_version s changes b).working_tree) ∧
    (∀ s s2, commit_working_version s = some s2 →
      workingInsertOnly s.working_tree → workingInsertOnly s2.working_tree) ∧
    (∀ s v r s2, branch_from_version s v = some (r, s2) →
      workingInsertOnly s.working_tree → workingInsertOnly s2.working_tree) := by
  have hcore := fun cache changes t h =>
    write_changes_preserves_insert_only cache changes t h
  refine ⟨fun t cache changes h => hcore cache changes t h, ?_, ?_, ?_⟩
  · intro s changes b h
    cases b
    · exact h
    · exact hcore _ _ _ h
  · intro s s2 h hw
    rw [commit_preserves_working h]
    exact hw
  · intro s v r s2 h hw
    unfold branch_from_version at h
    rcases Option.map_eq_some'.1 h with ⟨s1, hc, hb⟩
    have hw1 : workingInsertOnly s1.working_tree := by
      rw [commit_preserves_working hc]
      exact hw
    split at hb
    · cases hb
      exact hw1
    · split at hb
      · cases hb
        exact hw1
      · split at hb
        · cases hb
          exact hw1
        · cases hb
          exact replayPath_preserves_insert_only _ _ _ _ (by assumption) hw1

theorem working_tree_insert_only_witness :
    workingInsertOnly openFresh.working_tree ∧
    workingInsertOnly (write_working_version openFresh
      (encodeSingle scenarioKey (Change.Insert [0])) true).working_tree :=
  have h0 : workingInsertOnly openFresh.working_tree :=
    fun p hp => absurd hp (List.not_mem_nil p)
  ⟨h0, working_tree_insert_only.2.1 openFresh _ true h0⟩

theorem write_changes_cons_snd (t : Tree) (cache : List DbKey3i32) (kb : Bytes)
    (c : Change) (rest : List (Bytes × Change)) :
    (write_changes_to_working_tree t cache ((kb, c) :: rest)).2 =
      (if DbKey3i32.from_sled_key kb ∈ cache then [] else
        [(kb, match aGet t kb with
          | some old => old
          | none => Change.Remove)]) ++
      (write_changes_to_working_tree
        (match c with
          | Change.Insert _ => aPut t kb c
          | Change.Remove => (aDel t kb).2) cache rest).2 := by
  by_cases hmem : DbKey3i32.from_sled_key kb ∈ cache <;>
    cases hold : aGet t kb <;>
      simp [write_changes_to_working_tree, hmem, hold]

/-- C2: a mutation emits a reverse change exactly when its decoded key
is not already in the backup key cache, the emitted value being the
prior working-tree value when present and the prebuilt serialized
Remove otherwise (stated for batches without duplicate encoded keys, as
produced by the encoder); consequently, in the oldest-value scenario —
two writes to the same key inside one working version, a commit, and a
branch back to the parent — the read returns the value from before the
first write. -/
theorem oldest_backup_discipline :
    (∀ (t : Tree) (cache : List DbKey3i32) (changes : List (Bytes × Change)),
      (changes.map Prod.fst).Nodup →
      (write_changes_to_working_tree t cache changes).2 =
        changes.filterMap (fun kv =>
          if DbKey3i32.from_sled_key kv.1 ∈ cache then none
          else some (kv.1, match aGet t kv.1 with
            | some old => old
            | none => Change.Remove))) ∧
    oldestScenario.map Prod.fst = some (Except.ok ()) ∧
    oldestScenario.map (fun r => read_working_version r.2 scenarioKey) =
      some (some (Change.Insert [0])) := by
  refine ⟨?_, by decide, by decide⟩
  intro t cache changes
  induction changes generalizing t with
  | nil => intro _; rfl
  | cons kv rest ih =>
    intro h
    obtain ⟨kb, c⟩ := kv
    simp only [List.map_cons, List.nodup_cons] at h
    rw [write_changes_cons_snd, List.filterMap_cons]
    have hrest : (write_changes_to_working_tree
        (match c with
          | Change.Insert _ => aPut t kb c
          | Change.Remove => (aDel t kb).2) cache rest).2 =
        rest.filterMap (fun kv =>
          if DbKey3i32.from_sled_key kv.1 ∈ cache then none
          else some (kv.1, match aGet t kv.1 with
            | some old => old
            | none => Change.Remove)) := by
      rw [ih _ h.2]
      apply List.filterMap_congr
      intro x hx
      have hne : x.1 ≠ kb := by
        intro he
        exact h.1 (he ▸ List.mem_map_of_mem Prod.fst hx)
      have hget : aGet (match c with
          | Change.Insert _ => aPut t kb c
          | Change.Remove => (aDel t kb).2) x.1 = aGet t x.1 := by
        cases c with
        | Insert d => exact aGet_aPut_ne _ hne _
        | Remove =>
          show aGet (aRemoveKey kb t) x.1 = aGet t x.1
          exact aGet_aRemoveKey_ne _ hne
      rw [hget]
    rw [hrest]
    by_cases hmem : DbKey3i32.from_sled_key kb ∈ cache
    · simp [hmem]
    · simp [hmem]

theorem oldest_backup_discipline_witness :
    ((encodeSingle scenarioKey (Change.Insert [0])).map Prod.fst).Nodup ∧
    (write_changes_to_working_tree [] []
        (encodeSingle scenarioKey (Change.Insert [0]))).2 =
      (encodeSingle scenarioKey (Change.Insert [0])).filterMap (fun kv =>
        if DbKey3i32.from_sled_key kv.1 ∈ ([] : List DbKey3i32) then none
        else some (kv.1, match aGet ([] : Tree) kv.1 with
          | some old => old
          | none => Change.Remove)) :=
  ⟨by decide, oldest_backup_discipline.1 [] [] _ (by decide)⟩

theorem clear_backup_mono (keys : List DbKey3i32) :
    ∀ (t : Tree) (kb : Bytes), aGet t kb = none →
      aGet (clear_backup t keys) kb = none := by
  induction keys with
  | nil => exact fun t kb h => h
  | cons k2 rest ih =>
    intro t kb h
    show aGet (clear_backup (aRemoveKey k2.as_sled_key t) rest) kb = none
    apply ih
    by_cases he : kb = k2.as_sled_key
    · rw [he, aGet_aRemoveKey_self]
    · rw [aGet_aRemoveKey_ne _ he]
      exact h

theorem aGet_clear_backup_of_mem (keys : List DbKey3i32) :
    ∀ (t : Tree) (k : DbKey3i32), k ∈ keys →
      aGet (clear_backup t keys) k.as_sled_key = none := by
  induction keys with
  | nil =>
    intro t k hk
    exact absurd hk (List.not_mem_nil k)
  | cons k2 rest ih =>
    intro t k hk
    show aGet (clear_backup (aRemoveKey k2.as_sled_key t) rest) k.as_sled_key = none
    rcases List.mem_cons.1 hk with h1 | h1
    · apply clear_backup_mono
      rw [h1, aGet_aRemoveKey_self]
    · exact ih _ k h1

/-- C3: committing with a non-empty backup cache and a parent archives
the drained backup delta under the parent, links the old working
version with parent equal to the old parent, installs metadata holding
grandparent = old parent, parent = old working and a freshly generated
working id, and clears the backup cache; with no parent the backup
entries are removed and no archive entry is written. -/
theorem commit_rotation (s : DbState) (hne : s.backup_key_cache ≠ []) :
    (∀ p b2 vc, s.cached_meta.parent_version = some p →
      commit_backup s.backup_tree s.backup_key_cache = some (b2, vc) →
      ∃ s2, commit_working_version s = some s2 ∧
        aGet s2.version_change_tree p = some vc ∧
        aGet s2.version_graph_tree s.cached_meta.working_version = some ⟨some p⟩ ∧
        s2.cached_meta = ⟨some p, some s.cached_meta.working_version, s.next_id⟩ ∧
        s2.backup_key_cache = [] ∧
        s2.backup_tree = b2 ∧
        s2.working_tree = s.working_tree ∧
        s2.next_id = s.next_id + 1) ∧
    (s.cached_meta.parent_version = none →
      ∃ s2, commit_working_version s = some s2 ∧
        s2.version_change_tree = s.version_change_tree ∧
        (∀ k ∈ s.backup_key_cache, aGet s2.backup_tree k.as_sled_key = none) ∧
        aGet s2.version_graph_tree s.cached_meta.working_version = some ⟨none⟩ ∧
        s2.cached_meta = ⟨none, some s.cached_meta.working_version, s.next_id⟩ ∧
        s2.backup_key_cache = [] ∧
        s2.next_id = s.next_id + 1) := by
  constructor
  · intro p b2 vc hp hcb
    refine ⟨{ working_tree := s.working_tree
              backup_tree := b2
              version_change_tree := archive_version s.version_change_tree p vc
              version_graph_tree := link_version s.version_graph_tree
                s.cached_meta.working_version ⟨s.cached_meta.parent_version⟩
              backup_key_cache := []
              cached_meta := ⟨s.cached_meta.parent_version,
                some s.cached_meta.working_version, s.next_id⟩
              next_id := s.next_id + 1 }, ?_, ?_, ?_, ?_, rfl, rfl, rfl, rfl⟩
    · unfold commit_working_version
      rw [if_neg hne, hp, hcb]
      rfl
    · exact aGet_aPut_same _ _ _
    · show aGet (aPut _ _ _) _ = _
      rw [aGet_aPut_same, hp]
    · show GridDbMetadata.mk s.cached_meta.parent_version _ _ = _
      rw [hp]
  · intro hp
    refine ⟨{ working_tree := s.working_tree
              backup_tree := clear_backup s.backup_tree s.backup_key_cache
              version_change_tree := s.version_change_tree
              version_graph_tree := link_version s.version_graph_tree
                s.cached_meta.working_version ⟨s.cached_meta.parent_version⟩
              backup_key_cache := []
              cached_meta := ⟨s.cached_meta.parent_version,
                some s.cached_meta.working_version, s.next_id⟩
              next_id := s.next_id + 1 }, ?_, rfl, ?_, ?_, ?_, rfl, rfl⟩
    · unfold commit_working_version
      rw [if_neg hne, hp]
      rfl
    · intro k hk
      exact aGet_clear_backup_of_mem _ _ _ hk
    · show aGet (aPut _ _ _) _ = _
      rw [aGet_aPut_same, hp]
    · show GridDbMetadata.mk s.cached_meta.parent_version _ _ = _
      rw [hp]

theorem commit_rotation_witness :
    missingArchivePre.backup_key_cache ≠ [] ∧
    missingArchivePre.cached_meta.parent_version = some 1 ∧
    commit_backup missingArchivePre.backup_tree missingArchivePre.backup_key_cache =
      some ([], [(⟨1, 0⟩, Change.Remove)]) ∧
    (∃ s2, commit_working_version missingArchivePre = some s2 ∧
      aGet s2.version_change_tree 1 = some [(⟨1, 0⟩, Change.Remove)] ∧
      aGet s2.version_graph_tree missingArchivePre.cached_meta.working_version =
        some ⟨some 1⟩ ∧
      s2.cached_meta =
        ⟨some 1, some missingArchivePre.cached_meta.working_version,
          missingArchivePre.next_id⟩ ∧
      s2.backup_key_cache = [] ∧
      s2.backup_tree = [] ∧
      s2.working_tree = missingArchivePre.working_tree ∧
      s2.next_id = missingArchivePre.next_id + 1) :=
  ⟨by decide, rfl, by decide,
    (commit_rotation missingArchivePre (by decide)).1 1 [] [(⟨1, 0⟩, Change.Remove)]
      rfl (by decide)⟩

/-- C5 counterexample: from the reachable state missingArchivePre, whose
backup cache is non-empty and whose archive entry for version 0 was
manually deleted, branch_from_version aborts with MissingVersionChanges
yet the cached metadata differs from its value before the call (the
implicit initial commit persisted), refuting byte-identity with the
pre-call state. -/
theorem branch_missing_not_atomic_counterexample :
    (branch_from_version missingArchivePre 0).map Prod.fst =
      some (Except.error AbortReason.MissingVersionChanges) ∧
    (branch_from_version missingArchivePre 0).map (fun r => r.2.cached_meta) ≠
      some missingArchivePre.cached_meta := by
  constructor
  · decide
  · decide

/-- C5 (amended): when replay hits a missing archive entry the branch
transaction aborts with MissingVersionChanges and rolls back, leaving
the cached metadata and all trees exactly in the state produced by the
implicit initial commit; in particular, when the backup cache was empty
at the call, the state is exactly the pre-call state. -/
theorem branch_missing_abort_atomic (s : DbState) (target : Nat) (s2 : DbState)
    (h : branch_from_version s target =
      some (Except.error AbortReason.MissingVersionChanges, s2)) :
    commit_working_version s = some s2 ∧ (s.backup_key_cache = [] → s2 = s) := by
  unfold branch_from_version at h
  rcases Option.map_eq_some'.1 h with ⟨s1, hc, hb⟩
  have hs2 : s2 = s1 := by
    split at hb
    · simp at hb
    · split at hb
      · rw [Prod.mk.injEq] at hb
        exact hb.2.symm
      · split at hb
        · rw [Prod.mk.injEq] at hb
          exact hb.2.symm
        · simp at hb
  refine ⟨hs2 ▸ hc, fun hemp => ?_⟩
  have hid := commit_of_empty_cache s hemp
  rw [hid] at hc
  rw [hs2]
  exact (Option.some.injEq _ _ ▸ hc).symm

theorem branch_missing_abort_atomic_witness :
    branch_from_version missingArchivePre 0 =
      some (Except.error AbortReason.MissingVersionChanges, missingArchivePost) ∧
    commit_working_version missingArchivePre = some missingArchivePost :=
  ⟨by decide,
    (branch_missing_abort_atomic missingArchivePre 0 missingArchivePost (by decide)).1⟩

theorem lexLtB_sled3 {a b : DbKey3i32} (ha : a.morton < 2 ^ 96) (hb : b.morton < 2 ^ 96) :
    (lexLtB a.as_sled_key b.as_sled_key = true ↔
      (a.level < b.level ∨ (a.level = b.level ∧ a.morton < b.morton))) := by
  have ha12 : a.morton < 2 ^ (8 * 12) := lt_of_lt_of_le ha (by norm_num)
  have hb12 : b.morton < 2 ^ (8 * 12) := lt_of_lt_of_le hb (by norm_num)
  rw [DbKey3i32.as_sled_key, DbKey3i32.as_sled_key, toBeBytes_sixteen_drop_four ha,
    toBeBytes_sixteen_drop_four hb]
  rcases Nat.lt_trichotomy a.level b.level with h1 | h1 | h1
  · rw [lexLtB_cons_lt h1]
    simp [h1]
  · rw [h1, lexLtB_cons_same, lexLtB_toBeBytes 12 _ _ ha12 hb12]
    simp [h1]
  · have h2 : ¬ a.level < b.level := Nat.lt_asymm h1
    simp [lexLtB, h1, h2, Nat.ne_of_gt h1]

theorem keyLt_of_keyLe_ne {a b : DbKey3i32} (h : keyLe a b) (hne : a ≠ b) :
    a.level < b.level ∨ (a.level = b.level ∧ a.morton < b.morton) := by
  rcases h with h | ⟨h1, h2⟩
  · exact Or.inl h
  · refine Or.inr ⟨h1, lt_of_le_of_ne h2 fun hm => hne ?_⟩
    obtain ⟨la, ma⟩ := a
    obtain ⟨lb, mb⟩ := b
    simp only at h1 hm
    rw [h1, hm]

theorem aGet_foldl_add_change (events : List (DbKey3i32 × Change)) :
    ∀ (m : List (DbKey3i32 × Change)) (k : DbKey3i32),
      aGet (events.foldl (fun acc e => add_change acc e.1 e.2) m) k =
        events.foldl (fun acc e => if e.1 = k then some e.2 else acc) (aGet m k) := by
  induction events with
  | nil => intro m k; rfl
  | cons e es ih =>
    intro m k
    simp only [List.foldl_cons]
    rw [ih]
    congr 1
    by_cases he : e.1 = k
    · rw [add_change, if_pos he, he]
      exact aGet_aPut_same _ _ _
    · rw [add_change, if_neg he]
      exact aGet_aPut_ne _ (fun hh => he hh.symm) _

theorem aGet_addedChanges (events : List (DbKey3i32 × Change)) (k : DbKey3i32) :
    aGet (addedChanges events) k = lastChange events k := by
  unfold addedChanges lastChange
  rw [aGet_foldl_add_change]
  rfl

theorem keys_foldl_add_change_nodup (events : List (DbKey3i32 × Change)) :
    ∀ (m : List (DbKey3i32 × Change)), (m.map Prod.fst).Nodup →
      ((events.foldl (fun acc e => add_change acc e.1 e.2) m).map Prod.fst).Nodup := by
  induction events with
  | nil => exact fun m h => h
  | cons e es ih =>
    intro m h
    exact ih _ (aPut_keys_nodup h e.1 e.2)

theorem keys_foldl_add_change_subset (events : List (DbKey3i32 × Change)) :
    ∀ (m : List (DbKey3i32 × Change)) (k : DbKey3i32),
      k ∈ (events.foldl (fun acc e => add_change acc e.1 e.2) m).map Prod.fst →
        k ∈ events.map Prod.fst ∨ k ∈ m.map Prod.fst := by
  induction events with
  | nil => exact fun m k h => Or.inr h
  | cons e es ih =>
    intro m k h
    rcases ih (add_change m e.1 e.2) k h with h1 | h1
    · simp only [List.map_cons, List.mem_cons]
      exact Or.inl (Or.inr h1)
    · simp only [add_change, aPut, List.map_cons, List.mem_cons] at h1
      rcases h1 with h2 | h2
      · simp only [List.map_cons, List.mem_cons]
        exact Or.inl (Or.inl h2)
      · rcases List.mem_map.1 h2 with ⟨q, hq, hqe⟩
        exact Or.inr (List.mem_map.2 ⟨q, mem_aRemoveKey_sub hq, hqe⟩)

/-- C9: after any sequence of add_change calls on representable keys,
encode emits at most one entry per key — holding the latest change
added for that key — and the entries are strictly ascending in encoded
key byte order. -/
theorem change_encoder_contract (events : List (DbKey3i32 × Change))
    (hrep : ∀ e ∈ events, e.1.level < 256 ∧ e.1.morton < 2 ^ 96) :
    List.Pairwise (fun p q => lexLtB p.1 q.1 = true)
      (ChangeEncoder.encode (addedChanges events)) ∧
    (∀ (k : DbKey3i32), k.morton < 2 ^ 96 → ∀ c : Change,
      ((k.as_sled_key, c) ∈ ChangeEncoder.encode (addedChanges events) ↔
        lastChange events k = some c)) := by
  have hnodup : ((addedChanges events).map Prod.fst).Nodup :=
    keys_foldl_add_change_nodup events [] (by simp)
  have hbound : ∀ e ∈ addedChanges events, e.1.morton < 2 ^ 96 := by
    intro e he
    have hk : e.1 ∈ (addedChanges events).map Prod.fst := List.mem_map_of_mem Prod.fst he
    rcases keys_foldl_add_change_subset events [] e.1 hk with h1 | h1
    · rcases List.mem_map.1 h1 with ⟨e2, he2, heq⟩
      exact heq ▸ (hrep e2 he2).2
    · simp at h1
  have hperm := List.perm_insertionSort (fun (a b : DbKey3i32 × Change) => keyLe a.1 b.1)
    (addedChanges events)
  have hsorted := List.sorted_insertionSort (fun (a b : DbKey3i32 × Change) => keyLe a.1 b.1)
    (addedChanges events)
  have hsnodup : ((List.insertionSort (fun (a b : DbKey3i32 × Change) => keyLe a.1 b.1)
      (addedChanges events)).map Prod.fst).Nodup :=
    ((hperm.map Prod.fst).nodup_iff).2 hnodup
  have hsbound : ∀ e ∈ List.insertionSort (fun (a b : DbKey3i32 × Change) => keyLe a.1 b.1)
      (addedChanges events), e.1.morton < 2 ^ 96 :=
    fun e he => hbound e (hperm.mem_iff.1 he)
  constructor
  · unfold ChangeEncoder.encode
    rw [List.pairwise_map]
    have hne : List.Pairwise (fun p q : DbKey3i32 × Change => p.1 ≠ q.1)
        (List.insertionSort (fun (a b : DbKey3i32 × Change) => keyLe a.1 b.1)
          (addedChanges events)) :=
      (List.pairwise_map).1 hsnodup
    refine List.Pairwise.imp_of_mem ?_ (List.Pairwise.and hsorted hne)
    intro a b ha hb hab
    rw [lexLtB_sled3 (hsbound a ha) (hsbound b hb)]
    exact keyLt_of_keyLe_ne hab.1 hab.2
  · intro k hk c
    unfold ChangeEncoder.encode
    rw [List.mem_map]
    constructor
    · rintro ⟨e, he, heq⟩
      rw [Prod.mk.injEq] at heq
      have hek : e.1 = k := DbKey3i32.as_sled_key_inj (hsbound e he) hk heq.1
      have hekc : e = (k, c) := by
        obtain ⟨e1, e2⟩ := e
        simp only at hek heq
        rw [hek, heq.2]
      have hmem : (k, c) ∈ addedChanges events := by
        rw [← hekc]
        exact hperm.mem_iff.1 he
      rw [← aGet_addedChanges]
      exact (aGet_eq_some_iff_mem hnodup k c).2 hmem
    · intro hlast
      have hget : aGet (addedChanges events) k = some c := by
        rw [aGet_addedChanges]
        exact hlast
      have hmem := (aGet_eq_some_iff_mem hnodup k c).1 hget
      exact ⟨(k, c), hperm.mem_iff.2 hmem, rfl⟩

theorem change_encoder_contract_witness :
    (∀ e ∈ witnessEvents, e.1.level < 256 ∧ e.1.morton < 2 ^ 96) ∧
    ((DbKey3i32.as_sled_key ⟨1, 5⟩, Change.Insert [7]) ∈
      ChangeEncoder.encode (addedChanges witnessEvents)) :=
  ⟨by decide,
    ((change_encoder_contract witnessEvents (by decide)).2 ⟨1, 5⟩ (by norm_num)
      (Change.Insert [7])).2 (by decide)⟩

end GridDb
